import Mathlib

/-!
# Verification of the publisher-report pipeline (`app.py`)

Shallow embedding of `process_excel_and_create_reports` and the archive
step of `app.py`.  Tables model pandas DataFrames: a cell is `Option Value`,
where `none` models a blank cell read as NaN by `pd.read_excel`.  Pandas
semantics embedded here:
* `Series.unique` keeps NaN (it dedups with identity/hash semantics), so
  deduplication uses structural equality on `Option Value`;
* the boolean filter `df['Publisher'] == publisher` uses IEEE-style
  comparison where NaN is unequal to everything (including NaN), embedded
  as `cellEq`;
* `str(publisher)` renders NaN as the string "nan".
The generation timestamp (`datetime.now().strftime("%Y%m%d_%H%M%S")`) is
modelled as an opaque string parameter, and the parsed workbook
(`pd.read_excel(..., sheet_name=None)`) as an `Option` that is `none` when
parsing raises.  Serialized report bytes are modelled by the report's
sheet structure itself.  The ZIP archive step writes exactly the entries
of the returned dict, in order, so archive entries are identified with the
dict entries.
-/

/-- Scalar cell values are opaque tokens; the program compares them for
equality and stringifies them, so a string carrier is faithful. -/
abbrev Value := String

/-- A cell of a DataFrame: `none` models a blank cell (NaN). -/
abbrev Cell := Option Value

/-- A row, as the list of its cells in column order. -/
abbrev Row := List Cell

/-- A sheet's tabular data: column names plus rows (pandas DataFrame). -/
structure Table where
  cols : List String
  rows : List Row
deriving DecidableEq

/-- A workbook: ordered mapping sheet name → table
(`pd.read_excel(..., sheet_name=None)`). -/
abbrev Workbook := List (String × Table)

/-- A per-publisher report: ordered mapping sheet name → filtered table. -/
abbrev Report := List (String × Table)

/-- The returned mapping filename → report, with Python-dict semantics. -/
abbrev Dict := List (String × Report)

/-- `'Publisher' in df.columns` (app.py line 39). -/
def hasPubCol (t : Table) : Bool := decide ("Publisher" ∈ t.cols)

/-- Sheets kept by the sheet-review loop (app.py lines 38-43):
exactly those whose columns include `Publisher`. -/
def validSheets (wb : Workbook) : Workbook :=
  wb.filter (fun nt => hasPubCol nt.2)

/-- The `Publisher` cell of a row: the entry at the index of the
`Publisher` column, `none` (NaN) when the row is short or the column is
absent.  Embeds `df['Publisher']` applied to one row. -/
def pubCell (t : Table) (r : Row) : Cell :=
  match t.cols.findIdx? (fun c => c == "Publisher") with
  | some i => r.getD i none
  | none => none

/-- The `Publisher` column of a sheet, as a list (`df['Publisher']`). -/
def pubColumn (t : Table) : List Cell := t.rows.map (pubCell t)

/-- Pandas `==` on cells: NaN (`none`) is unequal to everything,
including NaN itself. -/
def cellEq (a b : Cell) : Bool :=
  match a, b with
  | some x, some y => x == y
  | _, _ => false

/-- `pd.concat(...).unique()` deduplication: keep the first occurrence of
each value in scan order.  Structural equality is used, so NaN is kept
exactly once (pandas `unique` treats NaN as one value). -/
def pdUniqueAux (seen : List Cell) : List Cell → List Cell
  | [] => []
  | c :: cs =>
    if c ∈ seen then pdUniqueAux seen cs
    else c :: pdUniqueAux (c :: seen) cs

/-- `Series.unique` over a concatenated column (app.py line 52). -/
def pdUnique (l : List Cell) : List Cell := pdUniqueAux [] l

/-- `pd.concat([df['Publisher'] for df in valid_sheets.values()]).unique()`
(app.py lines 51-52): all distinct publisher cells, in scan order. -/
def allPublishers (valid : Workbook) : List Cell :=
  pdUnique (valid.flatMap (fun nt => pubColumn nt.2))

/-- `original_df[original_df['Publisher'] == publisher]` (app.py line 83). -/
def filterTable (t : Table) (p : Cell) : List Row :=
  t.rows.filter (fun r => cellEq (pubCell t r) p)

/-- The report written for one publisher (app.py lines 77-87): for each
valid sheet, the rows matching the publisher, the sheet being skipped when
the filtered frame is empty (line 85). -/
def reportFor (valid : Workbook) (p : Cell) : Report :=
  valid.filterMap (fun nt =>
    let fr := filterTable nt.2 p
    if fr.isEmpty then none else some (nt.1, ⟨nt.2.cols, fr⟩))

/-- Characters kept by the sanitizer (app.py line 68):
`c.isalnum() or c in (' ', '_', '-')`, on the ASCII fragment. -/
def keepChar (c : Char) : Bool :=
  c.isAlphanum || c == ' ' || c == '_' || c == '-'

/-- Python `str.rstrip()`: drop trailing whitespace. -/
def rstripL (l : List Char) : List Char :=
  (l.reverse.dropWhile Char.isWhitespace).reverse

/-- `str(publisher)`: NaN stringifies to "nan". -/
def pubStr : Cell → String
  | none => "nan"
  | some v => v

/-- `"".join(c for c in s if c.isalnum() or c in (' ', '_', '-')).rstrip()`
(app.py line 68). -/
def sanitize (s : String) : String :=
  ⟨rstripL (s.data.filter keepChar)⟩

/-- The five characters of the pattern `.xlsx`. -/
def xpat : List Char := ['.', 'x', 'l', 's', 'x']

/-- `original_filename.replace('.xlsx', '')` (app.py line 71): remove every
occurrence of the substring `.xlsx`, scanning left to right,
non-overlapping. -/
def stripXlsx : List Char → List Char
  | '.' :: 'x' :: 'l' :: 's' :: 'x' :: rest => stripXlsx rest
  | c :: rest => c :: stripXlsx rest
  | [] => []

/-- Whether `.xlsx` occurs as a substring. -/
def hasXlsx : List Char → Bool
  | [] => false
  | c :: cs => xpat.isPrefixOf (c :: cs) || hasXlsx cs

/-- The output filename built at app.py line 71:
`f"{safe_publisher_name}_{original_filename.replace('.xlsx', '')}_{report_date}.xlsx"`. -/
def outputFilename (p : Cell) (orig date : String) : String :=
  sanitize (pubStr p) ++ "_" ++ ⟨stripXlsx orig.data⟩ ++ "_" ++ date ++ ".xlsx"

/-- Python-dict assignment `d[k] = v`: an existing key keeps its position
and gets the new value; a fresh key is appended. -/
def dictInsert (d : Dict) (k : String) (v : Report) : Dict :=
  if d.any (fun e => e.1 == k) then
    d.map (fun e => if e.1 == k then (k, v) else e)
  else d ++ [(k, v)]

/-- Python-dict lookup `d[k]` / `d.get(k)`. -/
def dictGet (d : Dict) (k : String) : Option Report :=
  (d.find? (fun e => e.1 == k)).map (fun e => e.2)

/-- The publisher loop (app.py lines 62-92): for each distinct publisher,
build its report and store it in `publisher_files` under its output
filename. -/
def publisherFiles (valid : Workbook) (pubs : List Cell) (orig date : String) : Dict :=
  pubs.foldl (fun d p => dictInsert d (outputFilename p orig date) (reportFor valid p)) []

/-- `process_excel_and_create_reports` (app.py lines 18-94).  `parsed` is
the outcome of `pd.read_excel`: `none` when it raises (the except branch
returns `{}`, line 32); the empty dict is returned when no sheet has a
`Publisher` column (line 47) or when the distinct-publisher list is empty
(line 56); otherwise the filled `publisher_files` dict is returned. -/
def processExcel (parsed : Option Workbook) (orig date : String) : Dict :=
  match parsed with
  | none => []
  | some wb =>
    let valid := validSheets wb
    if valid.isEmpty then []
    else
      let pubs := allPublishers valid
      if pubs.isEmpty then []
      else publisherFiles valid pubs orig date

/-- Row membership of a named sheet of a report (used to state that a
source row "appears in" a report). -/
def rowInRep (n : String) (r : Row) (rep : Report) : Bool :=
  rep.any (fun e => e.1 == n && decide (r ∈ e.2.rows))

/-! ## Spec-worded definitions (for refinement comparison only) -/

/-- Modelled from the spec's words for claim C5: the original filename
"with its '.xlsx' extension removed" — remove one final `.xlsx` suffix
only.  The source instead removes every occurrence (`stripXlsx`). -/
def stripExtOnly (s : String) : String :=
  if xpat.isSuffixOf s.data then ⟨s.data.take (s.data.length - 5)⟩ else s

/-- Modelled from the spec's words for claim C6: keep exactly the
alphanumeric / space / underscore / hyphen characters, dropping the rest
and removing nothing else.  The source additionally right-strips the
result (`sanitize`). -/
def sanitizeClaim (s : String) : String :=
  ⟨s.data.filter keepChar⟩

/-! ## Concrete example workbooks -/

/-- Scenario workbook of spec §8.7: sheets CRM and Adjust. -/
def tCRM : Table :=
  ⟨["Publisher", "Amount"],
   [[some "A", some "10"], [some "B", some "20"], [some "A", some "5"]]⟩

def tAdjust : Table :=
  ⟨["Publisher", "Clicks"], [[some "A", some "100"], [some "C", some "7"]]⟩

def wb7 : Workbook := [("CRM", tCRM), ("Adjust", tAdjust)]

/-- A qualifying sheet whose single row has a blank (NaN) publisher cell. -/
def tBlank : Table := ⟨["Publisher", "Amount"], [[none, some "10"]]⟩

def wbBlank : Workbook := [("S", tBlank)]

/-- A workbook whose only sheet lacks the Publisher column. -/
def wbNoQual : Workbook := [("Notes", ⟨["Remark"], [[some "x"]]⟩)]

/-- A qualifying sheet with zero data rows. -/
def wbEmptyRows : Workbook := [("S", ⟨["Publisher"], []⟩)]

/-- Two publishers whose names sanitize to the same filename token. -/
def wbCollide : Workbook := [("S", ⟨["Publisher"], [[some "A!"], [some "A?"]]⟩)]

/-! ## Basic lemmas about the embedding -/

theorem cellEq_eq_true_iff {a b : Cell} :
    cellEq a b = true ↔ ∃ v, a = some v ∧ b = some v := by
  cases a <;> cases b <;> simp [cellEq]
  exact eq_comm

theorem cellEq_some_self (v : Value) : cellEq (some v) (some v) = true := by
  simp [cellEq]

theorem mem_pdUniqueAux {x : Cell} :
    ∀ {l seen : List Cell}, x ∈ pdUniqueAux seen l ↔ x ∈ l ∧ x ∉ seen := by
  intro l
  induction l with
  | nil => simp [pdUniqueAux]
  | cons c cs ih =>
    intro seen
    by_cases hc : c ∈ seen
    · simp only [pdUniqueAux, if_pos hc]
      rw [ih]
      constructor
      · rintro ⟨h1, h2⟩; exact ⟨List.mem_cons_of_mem _ h1, h2⟩
      · rintro ⟨hmem, h2⟩
        rcases List.mem_cons.mp hmem with rfl | h1
        · exact absurd hc h2
        · exact ⟨h1, h2⟩
    · simp only [pdUniqueAux, if_neg hc]
      constructor
      · intro hmem
        rcases List.mem_cons.mp hmem with rfl | hmem'
        · exact ⟨List.mem_cons_self _ _, hc⟩
        · obtain ⟨h1, h2⟩ := ih.mp hmem'
          exact ⟨List.mem_cons_of_mem _ h1, fun hs => h2 (List.mem_cons_of_mem _ hs)⟩
      · rintro ⟨hmem, h2⟩
        rcases List.mem_cons.mp hmem with rfl | h1
        · exact List.mem_cons_self _ _
        · by_cases hxc : x = c
          · exact hxc ▸ List.mem_cons_self _ _
          · refine List.mem_cons_of_mem _ (ih.mpr ⟨h1, fun hs => ?_⟩)
            rcases List.mem_cons.mp hs with h | h
            · exact hxc h
            · exact h2 h

theorem nodup_pdUniqueAux : ∀ (l seen : List Cell), (pdUniqueAux seen l).Nodup := by
  intro l
  induction l with
  | nil => intro seen; simp [pdUniqueAux]
  | cons c cs ih =>
    intro seen
    by_cases hc : c ∈ seen
    · simpa [pdUniqueAux, if_pos hc] using ih seen
    · simp only [pdUniqueAux, if_neg hc, List.nodup_cons]
      refine ⟨fun hmem => ?_, ih _⟩
      have := (mem_pdUniqueAux.mp hmem).2
      exact this (List.mem_cons_self _ _)

theorem mem_pdUnique {x : Cell} {l : List Cell} : x ∈ pdUnique l ↔ x ∈ l := by
  simp [pdUnique, mem_pdUniqueAux]

theorem nodup_pdUnique (l : List Cell) : (pdUnique l).Nodup :=
  nodup_pdUniqueAux l []

theorem mem_validSheets {wb : Workbook} {e : String × Table} :
    e ∈ validSheets wb ↔ e ∈ wb ∧ "Publisher" ∈ e.2.cols := by
  simp [validSheets, List.mem_filter, hasPubCol]

theorem validSheets_keys_nodup {wb : Workbook} (h : (wb.map Prod.fst).Nodup) :
    ((validSheets wb).map Prod.fst).Nodup :=
  ((List.filter_sublist wb).map Prod.fst).nodup h

theorem eq_of_keys_nodup :
    ∀ {l : Workbook}, (l.map Prod.fst).Nodup →
      ∀ {n : String} {a b : Table}, (n, a) ∈ l → (n, b) ∈ l → a = b := by
  intro l
  induction l with
  | nil => intro _ n a b ha; cases ha
  | cons e es ih =>
    intro h n a b ha hb
    simp only [List.map_cons, List.nodup_cons] at h
    rcases List.mem_cons.mp ha with ha' | ha' <;>
      rcases List.mem_cons.mp hb with hb' | hb'
    · exact congrArg Prod.snd (ha'.trans hb'.symm)
    · rw [← ha'] at h
      exact absurd (List.mem_map_of_mem Prod.fst hb') h.1
    · rw [← hb'] at h
      exact absurd (List.mem_map_of_mem Prod.fst ha') h.1
    · exact ih h.2 ha' hb'

theorem mem_filterTable {t : Table} {p : Cell} {r : Row} :
    r ∈ filterTable t p ↔ r ∈ t.rows ∧ cellEq (pubCell t r) p = true := by
  simp [filterTable, List.mem_filter]

theorem mem_reportFor {valid : Workbook} {p : Cell} {e : String × Table} :
    e ∈ reportFor valid p ↔
      ∃ nt ∈ valid, filterTable nt.2 p ≠ [] ∧
        e = (nt.1, ⟨nt.2.cols, filterTable nt.2 p⟩) := by
  simp only [reportFor, List.mem_filterMap]
  constructor
  · rintro ⟨nt, hnt, hf⟩
    cases hemp : (filterTable nt.2 p).isEmpty with
    | true => simp [hemp] at hf
    | false =>
      simp only [hemp, Bool.false_eq_true, if_false, Option.some_inj] at hf
      exact ⟨nt, hnt, List.isEmpty_eq_false.mp hemp, hf.symm⟩
  · rintro ⟨nt, hnt, hne, rfl⟩
    refine ⟨nt, hnt, ?_⟩
    have hemp : (filterTable nt.2 p).isEmpty = false := List.isEmpty_eq_false.mpr hne
    simp [hemp]

theorem mem_allPublishers {valid : Workbook} {x : Cell} :
    x ∈ allPublishers valid ↔ ∃ nt ∈ valid, x ∈ pubColumn nt.2 := by
  simp [allPublishers, mem_pdUnique, List.mem_flatMap]

theorem rowInRep_iff {n : String} {r : Row} {rep : Report} :
    rowInRep n r rep = true ↔ ∃ e ∈ rep, e.1 = n ∧ r ∈ e.2.rows := by
  simp [rowInRep, List.any_eq_true]

/-- Counting with an equality predicate over a duplicate-free list
containing the value gives exactly one. -/
theorem countP_beq_eq_one_of_nodup {α : Type} [BEq α] [LawfulBEq α]
    {l : List α} {a : α} (hn : l.Nodup) (ha : a ∈ l) :
    l.countP (fun x => x == a) = 1 := by
  induction l with
  | nil => cases ha
  | cons b bs ih =>
    rw [List.nodup_cons] at hn
    rcases List.mem_cons.mp ha with rfl | ha'
    · rw [List.countP_cons]
      have hz : bs.countP (fun x => x == a) = 0 := by
        rw [List.countP_eq_zero]
        intro x hx hbeq
        exact hn.1 (eq_of_beq hbeq ▸ hx)
      simp [hz]
    · rw [List.countP_cons]
      have hb : (b == a) = false := by
        rw [beq_eq_false_iff_ne]
        rintro rfl
        exact hn.1 ha'
      rw [ih hn.2 ha', hb]
      simp

/-- A row of a qualifying sheet whose `Publisher` cell is `some v` belongs
to the report for `p` (through its sheet's name) iff `p = some v`. -/
theorem rowInRep_reportFor_iff {wb : Workbook} {n : String} {t : Table}
    {r : Row} {v : Value} {p : Cell}
    (hnodup : (wb.map Prod.fst).Nodup)
    (hmem : (n, t) ∈ validSheets wb) (hr : r ∈ t.rows)
    (hv : pubCell t r = some v) :
    (rowInRep n r (reportFor (validSheets wb) p) = true ↔ p = some v) := by
  constructor
  · intro h
    obtain ⟨e, he, hen, her⟩ := rowInRep_iff.mp h
    obtain ⟨nt, hnt, hne, rfl⟩ := mem_reportFor.mp he
    have hvn : ((validSheets wb).map Prod.fst).Nodup := validSheets_keys_nodup hnodup
    have hteq : nt.2 = t := by
      refine eq_of_keys_nodup hvn ?_ hmem
      have : nt = (nt.1, nt.2) := rfl
      rw [← hen]
      exact this ▸ hnt
    have hr' : r ∈ filterTable t p := by
      rw [← hteq]; exact her
    have hcell := (mem_filterTable.mp hr').2
    rw [hv] at hcell
    obtain ⟨w, hw1, hw2⟩ := cellEq_eq_true_iff.mp hcell
    rw [hw2, ← Option.some_inj.mp hw1]
  · rintro rfl
    have hrf : r ∈ filterTable t (some v) :=
      mem_filterTable.mpr ⟨hr, by rw [hv]; exact cellEq_some_self v⟩
    refine rowInRep_iff.mpr ⟨(n, ⟨t.cols, filterTable t (some v)⟩), ?_, rfl, hrf⟩
    exact mem_reportFor.mpr ⟨(n, t), hmem, List.ne_nil_of_mem hrf, rfl⟩

/-- The `Publisher` cell of a row of a valid sheet is a distinct
identifier value. -/
theorem pubCell_mem_allPublishers {wb : Workbook} {n : String} {t : Table}
    {r : Row} (hmem : (n, t) ∈ validSheets wb) (hr : r ∈ t.rows) :
    pubCell t r ∈ allPublishers (validSheets wb) :=
  mem_allPublishers.mpr ⟨(n, t), hmem, List.mem_map_of_mem _ hr⟩

/-- **C1, counterexample.**  Claim C1 states that every row of a
qualifying sheet appears in exactly one Report.  In the workbook
`wbBlank` the single row of the qualifying sheet `S` has a blank (NaN)
`Publisher` cell; the distinct-identifier list is the nonempty `[none]`,
yet the row appears in none of the generated Reports, because pandas
`== NaN` never holds.  So the claim fails as stated. -/
theorem c1_counterexample :
    ("S", tBlank) ∈ validSheets wbBlank ∧
    [none, some "10"] ∈ tBlank.rows ∧
    allPublishers (validSheets wbBlank) = [none] ∧
    (allPublishers (validSheets wbBlank)).countP
      (fun p => rowInRep "S" [none, some "10"]
        (reportFor (validSheets wbBlank) p)) = 0 := by
  decide

/-- **C1, amended.**  For every qualifying sheet of a workbook with
distinct sheet names and every row of it whose `Publisher` cell is
non-blank, the row appears in exactly one Report: the one whose
identifier value equals the row's `Publisher` cell.  (A row with a blank
`Publisher` cell appears in no Report.) -/
theorem c1_completeness_amended {wb : Workbook} {n : String} {t : Table}
    {r : Row} {v : Value}
    (hnodup : (wb.map Prod.fst).Nodup)
    (hmem : (n, t) ∈ validSheets wb) (hr : r ∈ t.rows)
    (hv : pubCell t r = some v) :
    (allPublishers (validSheets wb)).countP
      (fun p => rowInRep n r (reportFor (validSheets wb) p)) = 1 := by
  have hmemv : some v ∈ allPublishers (validSheets wb) := by
    rw [← hv]; exact pubCell_mem_allPublishers hmem hr
  have hcongr : (allPublishers (validSheets wb)).countP
      (fun p => rowInRep n r (reportFor (validSheets wb) p))
      = (allPublishers (validSheets wb)).countP (fun p => p == some v) := by
    refine List.countP_congr (fun p _ => ?_)
    rw [rowInRep_reportFor_iff hnodup hmem hr hv, beq_iff_eq]
  rw [hcongr]
  exact countP_beq_eq_one_of_nodup (nodup_pdUnique _) hmemv

/-- Witness for C1 (amended): the first CRM row of the §8.7 scenario
workbook, with publisher `A`, appears in exactly one Report. -/
theorem c1_witness :
    (allPublishers (validSheets wb7)).countP
      (fun p => rowInRep "CRM" [some "A", some "10"]
        (reportFor (validSheets wb7) p)) = 1 :=
  @c1_completeness_amended wb7 "CRM" tCRM [some "A", some "10"] "A"
    (by decide) (by decide) (by decide) (by decide)

/-- **C2, confirmed.**  For distinct identifier values `p1 ≠ p2`, the
Report generated for `p1` contains zero rows whose `Publisher` column
value equals `p2`: every sheet of that Report has a zero count of such
rows. -/
theorem c2_no_cross_leakage {valid : Workbook} {p1 p2 : Cell}
    (h : p1 ≠ p2) {e : String × Table} (he : e ∈ reportFor valid p1) :
    e.2.rows.countP (fun r => pubCell e.2 r == p2) = 0 := by
  obtain ⟨nt, hnt, hne, rfl⟩ := mem_reportFor.mp he
  rw [List.countP_eq_zero]
  intro r hrm
  have hr' : r ∈ filterTable nt.2 p1 := hrm
  have hcell := (mem_filterTable.mp hr').2
  obtain ⟨w, hw1, hw2⟩ := cellEq_eq_true_iff.mp hcell
  have hpc : pubCell (⟨nt.2.cols, filterTable nt.2 p1⟩ : Table) r
      = pubCell nt.2 r := rfl
  rw [hpc, hw1, beq_iff_eq]
  rw [hw2] at h
  intro hc
  exact h hc

/-- Witness for C2: the CRM sheet of publisher `A`'s report in the §8.7
scenario contains no row whose publisher is `B`. -/
theorem c2_witness :
    (("CRM", (⟨["Publisher", "Amount"],
        [[some "A", some "10"], [some "A", some "5"]]⟩ : Table)) :
          String × Table).2.rows.countP
      (fun r => pubCell (("CRM", (⟨["Publisher", "Amount"],
        [[some "A", some "10"], [some "A", some "5"]]⟩ : Table)) :
          String × Table).2 r == some "B") = 0 :=
  @c2_no_cross_leakage (validSheets wb7) (some "A") (some "B") (by decide)
    ("CRM", ⟨["Publisher", "Amount"],
      [[some "A", some "10"], [some "A", some "5"]]⟩) (by decide)

/-- **C3, counterexample.**  Claim C3 states that a qualifying sheet whose
identifier column is entirely blank leads to the "no identifier values"
outcome with zero Reports.  In `wbBlank` the only qualifying sheet's
`Publisher` column is entirely blank (`[none]`), yet pandas `unique` keeps
NaN as a value, so the pipeline produces one archive entry (named from
`str(nan) = "nan"`) whose Report has zero sheets — not zero entries. -/
theorem c3_counterexample :
    validSheets wbBlank = [("S", tBlank)] ∧
    pubColumn tBlank = [none] ∧
    processExcel (some wbBlank) "f.xlsx" "20250101_000000"
      = [("nan_f_20250101_000000.xlsx", [])] := by
  decide

/-- **C3, amended.**  If at least one sheet qualifies but the qualifying
sheets have no data rows at all (so the identifier column contains no
cells), the pipeline takes the "no identifier values" outcome and returns
the empty mapping: zero Reports and zero archive entries.  (A column of
blank cells instead yields the single NaN identifier and one Report.) -/
theorem c3_no_identifier_amended {wb : Workbook} {orig date : String}
    (h1 : validSheets wb ≠ [])
    (h2 : ∀ nt ∈ validSheets wb, nt.2.rows = []) :
    processExcel (some wb) orig date = [] := by
  have hflat : (validSheets wb).flatMap (fun nt => pubColumn nt.2) = [] := by
    rw [List.flatMap_eq_nil_iff]
    intro nt hnt
    rw [pubColumn, h2 nt hnt]
    rfl
  have hv : (validSheets wb).isEmpty = false := List.isEmpty_eq_false.mpr h1
  have hpubs : allPublishers (validSheets wb) = [] := by
    rw [allPublishers, hflat]
    rfl
  simp [processExcel, hv, hpubs]

/-- Witness for C3 (amended): a qualifying sheet with zero rows gives the
empty result. -/
theorem c3_witness :
    processExcel (some wbEmptyRows) "f.xlsx" "20250101_000000" = [] :=
  @c3_no_identifier_amended wbEmptyRows "f.xlsx" "20250101_000000"
    (by decide) (by decide)

/-- **C10, confirmed.**  `process_excel_and_create_reports` is modelled as
a total function (it raises nothing); in each of the three failure
situations — unparseable input (`parsed = none`), no qualifying sheets,
empty distinct-identifier list — it returns the empty mapping, so the
return value cannot distinguish which failure occurred. -/
theorem c10_soft_failures {wb : Workbook} {orig date : String}
    (h : validSheets wb = [] ∨ allPublishers (validSheets wb) = []) :
    processExcel none orig date = [] ∧
    processExcel (some wb) orig date = [] := by
  refine ⟨rfl, ?_⟩
  rcases h with h | h
  · simp [processExcel, h]
  · by_cases hv : validSheets wb = []
    · simp [processExcel, hv]
    · have hne : (validSheets wb).isEmpty = false := List.isEmpty_eq_false.mpr hv
      simp [processExcel, hne, h]

/-- Witness for C10: a workbook with no qualifying sheet, and an
unparseable upload, both return the empty mapping. -/
theorem c10_witness :
    processExcel none "f.xlsx" "20250101_000000" = [] ∧
    processExcel (some wbNoQual) "f.xlsx" "20250101_000000" = [] :=
  @c10_soft_failures wbNoQual "f.xlsx" "20250101_000000" (Or.inl (by decide))

/-- A report entry's name is the name of a valid sheet whose filtered
frame for that publisher is non-empty. -/
theorem reportFor_entry_source {valid : Workbook} {p : Cell}
    {e : String × Table} (he : e ∈ reportFor valid p) :
    ∃ t, (e.1, t) ∈ valid ∧ filterTable t p ≠ [] := by
  obtain ⟨nt, hnt, hne, rfl⟩ := mem_reportFor.mp he
  exact ⟨nt.2, hnt, hne⟩

/-- **C8, confirmed.**  For a workbook with distinct sheet names, a
qualifying sheet with zero rows matching a given identifier value is
absent (by name) from that identifier's Report: `to_excel` is only called
when the filtered frame is non-empty (app.py line 85). -/
theorem c8_sheet_omission {wb : Workbook} {p : Cell} {n : String} {t : Table}
    (hnodup : (wb.map Prod.fst).Nodup)
    (hmem : (n, t) ∈ validSheets wb)
    (hempty : filterTable t p = []) :
    (reportFor (validSheets wb) p).all (fun e => !(e.1 == n)) = true := by
  rw [List.all_eq_true]
  intro e he
  obtain ⟨t', ht', hne⟩ := reportFor_entry_source he
  rw [Bool.not_eq_true', beq_eq_false_iff_ne]
  rintro rfl
  have : t' = t :=
    eq_of_keys_nodup (validSheets_keys_nodup hnodup) ht' hmem
  rw [this, hempty] at hne
  exact hne rfl

/-- Witness for C8: in the §8.7 scenario, the Adjust sheet has no row for
publisher `B`, and `B`'s report has no sheet named Adjust. -/
theorem c8_witness :
    (reportFor (validSheets wb7) (some "B")).all
      (fun e => !(e.1 == "Adjust")) = true :=
  @c8_sheet_omission wb7 (some "B") "Adjust" tAdjust
    (by decide) (by decide) (by decide)

/-- **C9, confirmed.**  A sheet without the `Publisher` column is dropped
before any further processing: the valid-sheet list is the same as if the
sheet were absent (so it contributes nothing to any Report and nothing to
the distinct-identifier list), and no Report of the run contains a sheet
with its name (given distinct sheet names). -/
theorem c9_nonqualifying_excluded {wb1 wb2 : Workbook} {n : String} {t : Table}
    (hq : "Publisher" ∉ t.cols)
    (hnodup : ((wb1 ++ (n, t) :: wb2).map Prod.fst).Nodup) :
    validSheets (wb1 ++ (n, t) :: wb2) = validSheets (wb1 ++ wb2) ∧
    allPublishers (validSheets (wb1 ++ (n, t) :: wb2))
      = allPublishers (validSheets (wb1 ++ wb2)) ∧
    ∀ p : Cell, (reportFor (validSheets (wb1 ++ (n, t) :: wb2)) p).all
      (fun e => !(e.1 == n)) = true := by
  have hvs : validSheets (wb1 ++ (n, t) :: wb2) = validSheets (wb1 ++ wb2) := by
    rw [validSheets, validSheets, List.filter_append, List.filter_append,
      List.filter_cons]
    have : hasPubCol t = false := by
      rw [hasPubCol, decide_eq_false_iff_not]
      exact hq
    simp [this]
  refine ⟨hvs, by rw [hvs], ?_⟩
  intro p
  rw [List.all_eq_true]
  intro e he
  obtain ⟨t', ht', _⟩ := reportFor_entry_source he
  rw [Bool.not_eq_true', beq_eq_false_iff_ne]
  rintro rfl
  have hmem : (e.1, t') ∈ wb1 ++ (e.1, t) :: wb2 :=
    (mem_validSheets.mp ht').1
  have hteq : t' = t := by
    refine eq_of_keys_nodup hnodup hmem ?_
    exact List.mem_append_right _ (List.mem_cons_self _ _)
  have : "Publisher" ∈ t'.cols := (mem_validSheets.mp ht').2
  rw [hteq] at this
  exact hq this

/-- Witness for C9: adding the non-qualifying Notes sheet in front of the
§8.7 scenario workbook changes neither the valid sheets nor the
identifier list, and no report carries a sheet named Notes. -/
theorem c9_witness :
    validSheets ([("Notes", (⟨["Remark"], [[some "x"]]⟩ : Table))] ++ wb7)
      = validSheets ([] ++ wb7) ∧
    allPublishers (validSheets ([("Notes", (⟨["Remark"],
        [[some "x"]]⟩ : Table))] ++ wb7))
      = allPublishers (validSheets ([] ++ wb7)) ∧
    (reportFor (validSheets ([("Notes", (⟨["Remark"],
        [[some "x"]]⟩ : Table))] ++ wb7)) (some "A")).all
      (fun e => !(e.1 == "Notes")) = true := by
  have h := @c9_nonqualifying_excluded [] wb7 "Notes"
    ⟨["Remark"], [[some "x"]]⟩ (by decide) (by decide)
  exact ⟨h.1, h.2.1, h.2.2 (some "A")⟩

/-! ## Python-dict lemmas for the publisher_files mapping -/

/-- Inserting a fresh key appends the pair. -/
theorem dictInsert_fresh {d : Dict} {k : String} {v : Report}
    (h : ∀ e ∈ d, e.1 ≠ k) : dictInsert d k v = d ++ [(k, v)] := by
  have hany : d.any (fun e => e.1 == k) = false := by
    rw [List.any_eq_false]
    intro e he hbeq
    exact h e he (eq_of_beq hbeq)
  rw [dictInsert, hany]
  simp

/-- The publisher loop over pairwise-distinct fresh filenames appends one
entry per publisher, in order. -/
theorem foldl_dictInsert_fresh (valid : Workbook) (orig date : String) :
    ∀ (pubs : List Cell) (d : Dict),
      (∀ p ∈ pubs, ∀ e ∈ d, e.1 ≠ outputFilename p orig date) →
      (pubs.map (fun p => outputFilename p orig date)).Nodup →
      pubs.foldl (fun acc p =>
          dictInsert acc (outputFilename p orig date) (reportFor valid p)) d
        = d ++ pubs.map (fun p =>
            (outputFilename p orig date, reportFor valid p)) := by
  intro pubs
  induction pubs with
  | nil => intro d _ _; simp
  | cons p ps ih =>
    intro d hfresh hnodup
    rw [List.foldl_cons,
      dictInsert_fresh (fun e he => hfresh p (List.mem_cons_self _ _) e he)]
    rw [List.map_cons, List.nodup_cons] at hnodup
    rw [ih (d ++ [(outputFilename p orig date, reportFor valid p)]) ?_ hnodup.2]
    · simp
    · intro q hq e he
      rcases List.mem_append.mp he with hed | hes
      · exact hfresh q (List.mem_cons_of_mem _ hq) e hed
      · rcases List.mem_singleton.mp hes with rfl
        intro hqe
        have heq : outputFilename p orig date = outputFilename q orig date := hqe
        exact hnodup.1 (by rw [heq]; exact List.mem_map_of_mem _ hq)

/-- **C4, counterexample.**  Claim C4 states the archive has no entry for
an identifier whose Report has zero sheets.  For `wbBlank` the NaN
identifier's Report has zero sheets, yet `publisher_files` (and hence the
archive) receives an entry for it, because app.py line 90 stores the
buffer unconditionally. -/
theorem c4_counterexample :
    reportFor (validSheets wbBlank) none = [] ∧
    none ∈ allPublishers (validSheets wbBlank) ∧
    processExcel (some wbBlank) "f.xlsx" "20250101_000000"
      = [("nan_f_20250101_000000.xlsx", [])] := by
  decide

/-- **C4, amended.**  When the sanitized output filenames of the distinct
identifier values are pairwise distinct, the final mapping (and so the
archive) contains exactly one entry per identifier value, in scan order —
including identifier values whose Report contains zero sheets (the entry
is then an empty workbook). -/
theorem c4_archive_amended {wb : Workbook} {orig date : String}
    (hnodupF : ((allPublishers (validSheets wb)).map
      (fun p => outputFilename p orig date)).Nodup) :
    processExcel (some wb) orig date
      = (allPublishers (validSheets wb)).map
          (fun p => (outputFilename p orig date,
            reportFor (validSheets wb) p)) := by
  by_cases hv : validSheets wb = []
  · have hp0 : allPublishers ([] : Workbook) = [] := by decide
    simp [processExcel, hv, hp0]
  · have hne : (validSheets wb).isEmpty = false := List.isEmpty_eq_false.mpr hv
    by_cases hp : allPublishers (validSheets wb) = []
    · simp [processExcel, hne, hp]
    · have hpe : (allPublishers (validSheets wb)).isEmpty = false :=
        List.isEmpty_eq_false.mpr hp
      have hred : processExcel (some wb) orig date
          = publisherFiles (validSheets wb)
              (allPublishers (validSheets wb)) orig date := by
        simp [processExcel, hne, hpe]
      rw [hred, publisherFiles,
        foldl_dictInsert_fresh (validSheets wb) orig date
          (allPublishers (validSheets wb)) [] (fun p _ e he => absurd he
            (List.not_mem_nil e)) hnodupF]
      rfl

/-- Witness for C4 (amended): the §8.7 scenario yields exactly the three
entries for `A`, `B`, `C`, in scan order. -/
theorem c4_witness :
    processExcel (some wb7) "f.xlsx" "20250101_000000"
      = (allPublishers (validSheets wb7)).map
          (fun p => (outputFilename p "f.xlsx" "20250101_000000",
            reportFor (validSheets wb7) p)) :=
  @c4_archive_amended wb7 "f.xlsx" "20250101_000000" (by decide)

/-- Keys of `dictInsert`: unchanged when the key exists, appended when
fresh. -/
theorem keys_dictInsert (d : Dict) (k : String) (v : Report) :
    (dictInsert d k v).map Prod.fst =
      if d.any (fun e => e.1 == k) then d.map Prod.fst
      else d.map Prod.fst ++ [k] := by
  rw [dictInsert]
  split
  · rw [List.map_map]
    refine List.map_congr_left (fun e he => ?_)
    by_cases hek : (e.1 == k) = true
    · simp only [Function.comp_apply, hek, if_pos]
      exact (eq_of_beq hek).symm
    · simp only [Function.comp_apply, hek, if_neg]
      rfl
  · rw [List.map_append]
    rfl

/-- `dictInsert` preserves duplicate-freeness of the keys. -/
theorem keys_nodup_dictInsert {d : Dict} {k : String} {v : Report}
    (h : (d.map Prod.fst).Nodup) :
    ((dictInsert d k v).map Prod.fst).Nodup := by
  rw [keys_dictInsert]
  split
  · exact h
  · rename_i hany
    have hany' : d.any (fun e => e.1 == k) = false :=
      Bool.not_eq_true _ ▸ hany
    have hk : k ∉ d.map Prod.fst := by
      intro hmem
      obtain ⟨e, he, heq⟩ := List.mem_map.mp hmem
      have := List.any_eq_false.mp hany' e he
      exact this (heq ▸ beq_self_eq_true k)
    rw [List.nodup_append]
    exact ⟨h, List.nodup_singleton k,
      fun a ha hak => hk ((List.mem_singleton.mp hak) ▸ ha)⟩

/-- The inserted key is among the keys after `dictInsert`. -/
theorem key_mem_dictInsert (d : Dict) (k : String) (v : Report) :
    k ∈ (dictInsert d k v).map Prod.fst := by
  rw [keys_dictInsert]
  split
  · rename_i hany
    obtain ⟨e, he, hbeq⟩ := List.any_eq_true.mp hany
    exact (eq_of_beq hbeq) ▸ List.mem_map_of_mem _ he
  · exact List.mem_append_right _ (List.mem_singleton_self k)

/-- `dictInsert` keeps all existing keys. -/
theorem mem_keys_dictInsert_of_mem {d : Dict} {k' : String}
    (k : String) (v : Report) (h : k' ∈ d.map Prod.fst) :
    k' ∈ (dictInsert d k v).map Prod.fst := by
  rw [keys_dictInsert]
  split
  · exact h
  · exact List.mem_append_left _ h

/-- The publisher loop keeps the dict's keys duplicate-free. -/
theorem keys_nodup_foldl (valid : Workbook) (orig date : String) :
    ∀ (pubs : List Cell) (d : Dict), (d.map Prod.fst).Nodup →
      ((pubs.foldl (fun acc p =>
          dictInsert acc (outputFilename p orig date)
            (reportFor valid p)) d).map Prod.fst).Nodup := by
  intro pubs
  induction pubs with
  | nil => intro d h; exact h
  | cons p ps ih =>
    intro d h
    rw [List.foldl_cons]
    exact ih _ (keys_nodup_dictInsert h)

/-- After the publisher loop, any publisher's output filename is among the
keys. -/
theorem mem_keys_foldl (valid : Workbook) (orig date : String) {fn : String} :
    ∀ (pubs : List Cell) (d : Dict),
      (fn ∈ d.map Prod.fst ∨ ∃ p ∈ pubs, outputFilename p orig date = fn) →
      fn ∈ ((pubs.foldl (fun acc p =>
          dictInsert acc (outputFilename p orig date)
            (reportFor valid p)) d).map Prod.fst) := by
  intro pubs
  induction pubs with
  | nil =>
    intro d h
    rcases h with h | ⟨p, hp, _⟩
    · exact h
    · cases hp
  | cons p ps ih =>
    intro d h
    rw [List.foldl_cons]
    refine ih _ ?_
    rcases h with h | ⟨q, hq, hfq⟩
    · exact Or.inl (mem_keys_dictInsert_of_mem _ _ h)
    · rcases List.mem_cons.mp hq with rfl | hq'
      · exact Or.inl (hfq ▸ key_mem_dictInsert d _ _)
      · exact Or.inr ⟨q, hq', hfq⟩

/-- `find?` over a cons, as an if. -/
theorem find?_cons_eq {α : Type} (p : α → Bool) (a : α) (l : List α) :
    List.find? p (a :: l) = if p a then some a else List.find? p l := by
  by_cases h : p a = true
  · rw [List.find?_cons_of_pos _ h, if_pos h]
  · rw [List.find?_cons_of_neg _ h, if_neg h]

/-- `find?` on the update-in-place branch of `dictInsert`, looking for the
updated key. -/
theorem find?_update_self (d : Dict) (k : String) (v : Report) :
    List.find? (fun e => e.1 == k)
        (d.map (fun e => if e.1 == k then (k, v) else e))
      = if d.any (fun e => e.1 == k) then some (k, v) else none := by
  induction d with
  | nil => rfl
  | cons e es ih =>
    rw [List.map_cons, List.any_cons]
    cases hek : (e.1 == k) with
    | true => simp [find?_cons_eq]
    | false =>
      rw [if_neg Bool.false_ne_true, find?_cons_eq, hek,
        if_neg Bool.false_ne_true, ih, Bool.false_or]

/-- `find?` for a key different from the updated one ignores the update. -/
theorem find?_update_ne (d : Dict) (k : String) (v : Report) {fn : String}
    (h : fn ≠ k) :
    List.find? (fun e => e.1 == fn)
        (d.map (fun e => if e.1 == k then (k, v) else e))
      = List.find? (fun e => e.1 == fn) d := by
  induction d with
  | nil => rfl
  | cons e es ih =>
    cases hek : (e.1 == k) with
    | true =>
      rw [List.map_cons, if_pos hek, find?_cons_eq, find?_cons_eq]
      have h1 : ((k, v).1 == fn) = false := by
        rw [beq_eq_false_iff_ne]
        exact fun hkf => h hkf.symm
      have h2 : (e.1 == fn) = false := by
        rw [beq_eq_false_iff_ne, eq_of_beq hek]
        exact fun hkf => h hkf.symm
      rw [h1, h2]
      simpa using ih
    | false =>
      rw [List.map_cons, if_neg (by simp [hek]), find?_cons_eq, find?_cons_eq]
      cases hef : (e.1 == fn) with
      | true => simp [hef]
      | false => simpa [hef] using ih

/-- Looking up the just-assigned key returns the just-assigned value
(Python `d[k] = v; d[k] == v`). -/
theorem dictGet_dictInsert_self (d : Dict) (k : String) (v : Report) :
    dictGet (dictInsert d k v) k = some v := by
  rw [dictGet, dictInsert]
  split
  · rename_i hany
    rw [find?_update_self, if_pos hany]
    rfl
  · rename_i hany
    have hany' : d.any (fun e => e.1 == k) = false :=
      Bool.not_eq_true _ ▸ hany
    have hnone : List.find? (fun e => e.1 == k) d = none := by
      rw [List.find?_eq_none]
      exact fun e he => List.any_eq_false.mp hany' e he
    rw [List.find?_append, hnone]
    simp [List.find?_cons_of_pos]

/-- Assigning one key leaves lookups of other keys unchanged. -/
theorem dictGet_dictInsert_ne (d : Dict) (k : String) (v : Report)
    {fn : String} (h : fn ≠ k) :
    dictGet (dictInsert d k v) fn = dictGet d fn := by
  rw [dictGet, dictGet, dictInsert]
  split
  · rw [find?_update_ne d k v h]
  · rw [List.find?_append]
    have hlast : List.find? (fun e => e.1 == fn) [(k, v)] = none := by
      rw [List.find?_eq_none]
      intro e he
      rcases List.mem_singleton.mp he with rfl
      rw [beq_eq_false_iff_ne.mpr (fun hkf => h hkf.symm)]
      exact Bool.false_ne_true
    rw [hlast, Option.or_none]

/-- `getLast?` of a cons with non-empty tail. -/
theorem getLast?_cons_of_ne_nil {α : Type} {l : List α} (a : α) (h : l ≠ []) :
    (a :: l).getLast? = l.getLast? := by
  cases l with
  | nil => exact absurd rfl h
  | cons b bs => exact List.getLast?_cons_cons

/-- Looking up a filename after the publisher loop returns the report of
the LAST publisher whose output filename is that name (Python dict
assignment overwrites), or falls through to the initial dict. -/
theorem dictGet_foldl (valid : Workbook) (orig date fn : String) :
    ∀ (pubs : List Cell) (d : Dict),
      dictGet (pubs.foldl (fun acc p =>
          dictInsert acc (outputFilename p orig date)
            (reportFor valid p)) d) fn
        = match (pubs.filter
            (fun p => outputFilename p orig date == fn)).getLast? with
          | some q => some (reportFor valid q)
          | none => dictGet d fn := by
  intro pubs
  induction pubs with
  | nil => intro d; rfl
  | cons p ps ih =>
    intro d
    rw [List.foldl_cons, ih]
    cases hb : (outputFilename p orig date == fn) with
    | true =>
      rw [List.filter_cons_of_pos
        (p := fun p => outputFilename p orig date == fn) hb]
      cases hl : (ps.filter
          (fun p => outputFilename p orig date == fn)).getLast? with
      | some q =>
        rw [getLast?_cons_of_ne_nil p
          (fun hnil => by rw [hnil] at hl; exact Option.noConfusion hl), hl]
      | none =>
        rw [List.getLast?_eq_none_iff.mp hl, List.getLast?_singleton]
        rw [eq_of_beq hb, dictGet_dictInsert_self]
    | false =>
      rw [List.filter_cons_of_neg
        (p := fun p => outputFilename p orig date == fn) (by simp [hb])]
      cases hl : (ps.filter
          (fun p => outputFilename p orig date == fn)).getLast? with
      | some q => rfl
      | none =>
        exact dictGet_dictInsert_ne d _ _
          (fun hf => by rw [hf] at hb; simp at hb)

/-- **C7, confirmed.**  When exactly two distinct identifier values of a
run map to the same output filename (the later-processed one being `p2`),
no error occurs: the returned mapping has exactly one entry under that
filename and its content is `p2`'s Report — the earlier Report was
silently overwritten by the dict assignment at app.py line 90. -/
theorem c7_silent_overwrite {wb : Workbook} {orig date fn : String}
    {p1 p2 : Cell}
    (hv : validSheets wb ≠ [])
    (hfilter : (allPublishers (validSheets wb)).filter
        (fun p => outputFilename p orig date == fn) = [p1, p2])
    (hne : p1 ≠ p2) :
    (processExcel (some wb) orig date).countP (fun e => e.1 == fn) = 1 ∧
    dictGet (processExcel (some wb) orig date) fn
      = some (reportFor (validSheets wb) p2) := by
  have hp1f : p1 ∈ (allPublishers (validSheets wb)).filter
      (fun p => outputFilename p orig date == fn) := by
    rw [hfilter]; exact List.mem_cons_self _ _
  have hp1 : p1 ∈ allPublishers (validSheets wb) :=
    (List.mem_filter.mp hp1f).1
  have hfn1 : outputFilename p1 orig date = fn :=
    eq_of_beq (List.mem_filter.mp hp1f).2
  have hpubs : allPublishers (validSheets wb) ≠ [] := by
    intro h
    rw [h] at hfilter
    exact absurd hfilter (by simp)
  have hred : processExcel (some wb) orig date
      = publisherFiles (validSheets wb)
          (allPublishers (validSheets wb)) orig date := by
    simp [processExcel, List.isEmpty_eq_false.mpr hv,
      List.isEmpty_eq_false.mpr hpubs]
  rw [hred]
  constructor
  · have hkn : ((publisherFiles (validSheets wb)
        (allPublishers (validSheets wb)) orig date).map Prod.fst).Nodup :=
      keys_nodup_foldl (validSheets wb) orig date
        (allPublishers (validSheets wb)) [] (by simp)
    have hmem : fn ∈ (publisherFiles (validSheets wb)
        (allPublishers (validSheets wb)) orig date).map Prod.fst :=
      mem_keys_foldl (validSheets wb) orig date
        (allPublishers (validSheets wb)) [] (Or.inr ⟨p1, hp1, hfn1⟩)
    have hc : (publisherFiles (validSheets wb)
          (allPublishers (validSheets wb)) orig date).countP
            (fun e => e.1 == fn)
        = ((publisherFiles (validSheets wb)
            (allPublishers (validSheets wb)) orig date).map
              Prod.fst).countP (fun s => s == fn) :=
      (List.countP_map (fun s => s == fn) Prod.fst
        (publisherFiles (validSheets wb)
          (allPublishers (validSheets wb)) orig date)).symm
    rw [hc]
    exact countP_beq_eq_one_of_nodup hkn hmem
  · rw [publisherFiles, dictGet_foldl, hfilter, List.getLast?_cons_cons,
      List.getLast?_singleton]

/-- Witness for C7: publishers `A!` and `A?` both sanitize to filename
token `A`; the run keeps one entry, holding `A?`'s report. -/
theorem c7_witness :
    (processExcel (some wbCollide) "f.xlsx" "20250101_000000").countP
      (fun e => e.1 == "A_f_20250101_000000.xlsx") = 1 ∧
    dictGet (processExcel (some wbCollide) "f.xlsx" "20250101_000000")
        "A_f_20250101_000000.xlsx"
      = some (reportFor (validSheets wbCollide) (some "A?")) :=
  @c7_silent_overwrite wbCollide "f.xlsx" "20250101_000000"
    "A_f_20250101_000000.xlsx" (some "A!") (some "A?")
    (by decide) (by decide) (by decide)

/-! ## Character-level lemmas for the sanitizer -/

/-- A kept character that is whitespace must be the space character. -/
theorem keep_ws_eq_space {c : Char} (hk : keepChar c = true)
    (hw : c.isWhitespace = true) : c = ' ' := by
  have hw' : ((c = ' ' ∨ c = '\t') ∨ c = '\r') ∨ c = '\n' := by
    have h := hw
    simp only [Char.isWhitespace] at h
    simpa using h
  rw [or_assoc, or_assoc] at hw'
  rcases hw' with rfl | rfl | rfl | rfl
  · rfl
  · exact absurd hk (by decide)
  · exact absurd hk (by decide)
  · exact absurd hk (by decide)

/-- Elements of `takeWhile` satisfy the predicate and belong to the
list. -/
theorem mem_takeWhile_imp {α : Type} (p : α → Bool) :
    ∀ (l : List α) (x : α), x ∈ l.takeWhile p → p x = true ∧ x ∈ l := by
  intro l
  induction l with
  | nil => intro x hx; simp at hx
  | cons a as ih =>
    intro x hx
    cases hp : p a with
    | true =>
      simp only [List.takeWhile_cons, hp, if_true] at hx
      rcases List.mem_cons.mp hx with rfl | h
      · exact ⟨hp, List.mem_cons_self _ _⟩
      · obtain ⟨h1, h2⟩ := ih x h
        exact ⟨h1, List.mem_cons_of_mem _ h2⟩
    | false => simp [List.takeWhile_cons, hp] at hx

/-- The head of `dropWhile p l`, when present, falsifies `p`. -/
theorem head?_dropWhile_not {α : Type} (p : α → Bool) :
    ∀ (l : List α) (x : α), (l.dropWhile p).head? = some x → p x = false := by
  intro l
  induction l with
  | nil => intro x hx; simp at hx
  | cons a as ih =>
    intro x hx
    cases hp : p a with
    | true =>
      simp only [List.dropWhile_cons, hp, if_true] at hx
      exact ih x hx
    | false =>
      simp only [List.dropWhile_cons, hp, Bool.false_eq_true, if_false,
        List.head?_cons, Option.some_inj] at hx
      exact hx ▸ hp

/-- **C6, counterexample.**  Claim C6 states that sanitization keeps
exactly the alphanumeric/space/underscore/hyphen characters and removes
no retained character.  For the identifier `"A "` the kept characters are
`"A "`, but the code's trailing `.rstrip()` (app.py line 68) also removes
the retained trailing space, producing `"A"`. -/
theorem c6_counterexample :
    sanitizeClaim "A " = "A " ∧
    sanitize "A " = "A" ∧
    sanitize "A " ≠ sanitizeClaim "A " := by
  decide

/-- **C6, amended.**  The sanitized token consists of exactly those
characters of the stringified identifier that are alphanumeric, space,
underscore, or hyphen, in their original order, with every other
character dropped — and then the trailing run of spaces (if any) is also
removed: the result extended by some number of spaces is the filtered
character list, and the result does not end in a space. -/
theorem c6_sanitize_amended (s : String) :
    ∃ n, (sanitize s).data ++ List.replicate n ' '
        = s.data.filter keepChar ∧
      (sanitize s).data.getLast? ≠ some ' ' := by
  refine ⟨((s.data.filter keepChar).reverse.takeWhile
    Char.isWhitespace).length, ?_, ?_⟩
  · have htk : (s.data.filter keepChar).reverse.takeWhile Char.isWhitespace
        = List.replicate ((s.data.filter keepChar).reverse.takeWhile
            Char.isWhitespace).length ' ' := by
      apply List.eq_replicate_of_mem
      intro b hb
      obtain ⟨hbw, hbm⟩ := mem_takeWhile_imp _ _ b hb
      have hbl : b ∈ s.data.filter keepChar := List.mem_reverse.mp hbm
      exact keep_ws_eq_space (List.mem_filter.mp hbl).2 hbw
    show rstripL (s.data.filter keepChar) ++ _ = _
    rw [rstripL]
    conv_rhs => rw [← List.reverse_reverse (s.data.filter keepChar),
      ← List.takeWhile_append_dropWhile Char.isWhitespace
        (s.data.filter keepChar).reverse,
      List.reverse_append, htk, List.reverse_replicate]
  · intro hsome
    have h1 : (List.dropWhile Char.isWhitespace
        (s.data.filter keepChar).reverse).head? = some ' ' := by
      rw [← List.getLast?_reverse]
      exact hsome
    have h2 := head?_dropWhile_not Char.isWhitespace _ ' ' h1
    exact absurd h2 (by decide)

/-! ## Lemmas about the `.xlsx` removal in the filename -/

/-- When `.xlsx` does not start here, `stripXlsx` copies the head. -/
theorem stripXlsx_cons_of_not_prefix (c : Char) (cs : List Char)
    (h : xpat.isPrefixOf (c :: cs) = false) :
    stripXlsx (c :: cs) = c :: stripXlsx cs := by
  rw [stripXlsx.eq_def]
  split
  · rename_i rest heq
    rw [heq] at h
    simp [xpat, List.isPrefixOf] at h
  · rename_i heq
    injection heq with h1 h2
    subst h1
    subst h2
    rfl
  · rename_i heq
    exact absurd heq (List.cons_ne_nil c cs)

/-- The pattern `.xlsx` has no non-trivial border: if it is not a prefix
of `c :: cs`, it is not a prefix of `c :: cs ++ ".xlsx"` either. -/
theorem not_prefix_xpat_append {c : Char} {cs : List Char}
    (h : xpat.isPrefixOf (c :: cs) = false) :
    xpat.isPrefixOf (c :: cs ++ xpat) = false := by
  match cs with
  | [] => simp [xpat, List.isPrefixOf]
  | [a] => simp [xpat, List.isPrefixOf]
  | [a, b] => simp [xpat, List.isPrefixOf]
  | [a, b, d] => simp [xpat, List.isPrefixOf]
  | a :: b :: d :: e :: rest =>
    simp only [xpat, List.isPrefixOf, List.cons_append, Bool.and_true] at h ⊢
    simpa using h

/-- Removing `.xlsx` occurrences from `base ++ ".xlsx"` yields `base`
when `base` itself contains no occurrence. -/
theorem stripXlsx_append_xpat :
    ∀ (base : List Char), hasXlsx base = false →
      stripXlsx (base ++ xpat) = base := by
  intro base
  induction base with
  | nil => intro _; rfl
  | cons c cs ih =>
    intro h
    rw [hasXlsx, Bool.or_eq_false_iff] at h
    rw [List.cons_append,
      stripXlsx_cons_of_not_prefix c (cs ++ xpat)
        (not_prefix_xpat_append h.1),
      ih h.2]

/-- **C5, counterexample.**  Claim C5 states the filename embeds the
original filename with its `.xlsx` extension removed.  The code uses
`str.replace('.xlsx', '')`, which removes every occurrence: for upload
name `a.xlsx.xlsx`, extension removal gives `a.xlsx` but the code
produces `a`, so the built filename differs from the claimed one. -/
theorem c5_counterexample :
    stripExtOnly "a.xlsx.xlsx" = "a.xlsx" ∧
    outputFilename (some "A") "a.xlsx.xlsx" "20250101_000000"
      = "A_a_20250101_000000.xlsx" ∧
    outputFilename (some "A") "a.xlsx.xlsx" "20250101_000000"
      ≠ sanitize (pubStr (some "A")) ++ "_" ++ stripExtOnly "a.xlsx.xlsx"
        ++ "_" ++ "20250101_000000" ++ ".xlsx" := by
  decide

/-- **C5, amended.**  The output filename is the sanitized identifier,
underscore, the original filename with every occurrence of the substring
`.xlsx` removed, underscore, the generation timestamp, and `.xlsx`; when
`.xlsx` occurs in the original name only as its final extension, this
coincides with the claimed extension removal. -/
theorem c5_filename_amended (p : Cell) (base ts : String)
    (h : hasXlsx base.data = false) :
    outputFilename p (base ++ ".xlsx") ts
      = sanitize (pubStr p) ++ "_" ++ base ++ "_" ++ ts ++ ".xlsx" := by
  rw [outputFilename]
  have hd : (base ++ ".xlsx").data = base.data ++ xpat := by
    rw [String.data_append]
    congr 1
  rw [hd, stripXlsx_append_xpat base.data h]

/-- Witness for C5 (amended): a clean upload name `report.xlsx`. -/
theorem c5_witness :
    hasXlsx "report".data = false ∧
    outputFilename (some "Pub") ("report" ++ ".xlsx") "20250101_120000"
      = sanitize (pubStr (some "Pub")) ++ "_" ++ "report" ++ "_"
        ++ "20250101_120000" ++ ".xlsx" :=
  ⟨by decide,
    c5_filename_amended (some "Pub") "report" "20250101_120000" (by decide)⟩
